import Mathlib

/-!
Verification of the rule-synthesis engine of this repository against its
design document. The definitions below are a shallow embedding of the
Python functions in src/how_to_do.py; the doc comment of each definition
names the function it embeds. Theorems at the end of the file settle the
stated properties.

String primitives are implemented structurally over the character list of
a string so that every definition evaluates by kernel reduction.
-/

/-- Characters of a string that precede its first hash marker. Embeds the
Python expression `pattern.split` at the hash character, piece number
zero: the prefix of the string up to, and not including, the first hash
(the whole string when no hash occurs). -/
def beforeHash : List Char → List Char
  | [] => []
  | c :: cs => if c = '#' then [] else c :: beforeHash cs

/-- Removal of leading and trailing whitespace from a character list.
Embeds the Python `str.strip()` with no argument. -/
def trimChars (l : List Char) : List Char :=
  ((l.dropWhile Char.isWhitespace).reverse.dropWhile Char.isWhitespace).reverse

/-- Comparison key of a pattern: the text before the first hash marker,
with surrounding whitespace removed. Embeds the Python expression
`pattern.split` at the hash, first piece, then `.strip()`, used by
deduplicate_patterns (src/how_to_do.py lines 677 and 692). -/
def cleanPattern (p : String) : String :=
  String.mk (trimChars (beforeHash p.data))

/-- Small-list branch of deduplicate_patterns (src/how_to_do.py lines
671-682): single pass, the accumulator `seen` holds the comparison keys
already kept; a pattern is kept iff its key is nonempty and unseen. -/
def dedupGo (seen : List String) : List String → List String
  | [] => []
  | p :: ps =>
    let c := cleanPattern p
    if c = "" then dedupGo seen ps
    else if c ∈ seen then dedupGo seen ps
    else p :: dedupGo (c :: seen) ps

/-- Lexicographic comparison of character lists by code point, the order
Python uses to compare the key strings during the sort inside
deduplicate_patterns. -/
def keyLe : List Char → List Char → Bool
  | [], _ => true
  | _ :: _, [] => false
  | a :: as, b :: bs => if a = b then keyLe as bs else decide (a < b)

/-- Weak key order on key-pattern pairs. -/
def tupLe (t u : String × String) : Bool :=
  keyLe t.1.data u.1.data

/-- Stable insertion of a key-pattern pair into a list sorted weakly by
key (first component). -/
def insertTuple (t : String × String) : List (String × String) →
    List (String × String)
  | [] => [t]
  | u :: us => if tupLe t u then t :: u :: us else u :: insertTuple t us

/-- Stable sort of key-pattern pairs by key. Extensionally equal to the
Python stable `pattern_tuples.sort` with key = first component used by the
large-list branch of deduplicate_patterns (src/how_to_do.py line 697):
both are stable sorts with respect to the same total preorder on keys. -/
def sortTuples : List (String × String) → List (String × String)
  | [] => []
  | t :: ts => insertTuple t (sortTuples ts)

/-- Second phase of the large-list branch of deduplicate_patterns
(src/how_to_do.py lines 699-703): walk the sorted tuples, keeping the
original pattern of the first occurrence of each key. -/
def dedupTuples (seen : List String) : List (String × String) → List String
  | [] => []
  | t :: ts =>
    if t.1 ∈ seen then dedupTuples seen ts
    else t.2 :: dedupTuples (t.1 :: seen) ts

/-- Tuple construction of the large-list branch (src/how_to_do.py lines
690-694): a pattern with a nonempty comparison key is paired with its
key, a pattern with an empty key is dropped. -/
def toTuple (p : String) : Option (String × String) :=
  if cleanPattern p = "" then none else some (cleanPattern p, p)

/-- Large-list branch of deduplicate_patterns (src/how_to_do.py lines
684-705): pair every pattern having a nonempty key with its key, sort the
pairs by key, then keep first occurrences. -/
def dedupLarge (patterns : List String) : List String :=
  dedupTuples [] (sortTuples (patterns.filterMap toTuple))

/-- Embeds deduplicate_patterns (src/how_to_do.py lines 656-705): empty
input gives empty output; lists of at most 100 patterns take the simple
single-pass branch; longer lists take the sort-based branch. -/
def deduplicate_patterns (patterns : List String) : List String :=
  if patterns = [] then []
  else if patterns.length ≤ 100 then dedupGo [] patterns
  else dedupLarge patterns

/-- Modelled from the spec: one step of the naive single-pass
first-occurrence deduplication algorithm of section 4.3 of the design
document ("iterate the combined pattern list; for each pattern, strip
everything from its first hash marker onward and trim whitespace to obtain
a comparison key; drop the pattern if the key is empty or has been seen
before; otherwise keep the pattern with its original text and mark the key
seen"). -/
def naiveGo (seen : List String) : List String → List String
  | [] => []
  | p :: ps =>
    let key := String.mk (trimChars (beforeHash p.data))
    if key = "" ∨ key ∈ seen then naiveGo seen ps
    else p :: naiveGo (key :: seen) ps

/-- Modelled from the spec: the naive single-pass first-occurrence
deduplication algorithm, starting with no key seen. -/
def naiveDeduplicate (patterns : List String) : List String :=
  naiveGo [] patterns

/-- Parsed TOML section: a table carrying a patterns key with a list of
strings, or anything else (such sections are logged and skipped by the
loaders in src/how_to_do.py). -/
inductive TomlSection
  | valid (patterns : List String)
  | invalid
deriving DecidableEq

/-- Parsed TOML document: an insertion-ordered dictionary from section
name to section, as produced by tomllib.load. -/
abbrev TomlData := List (String × TomlSection)

/-- Rules dictionary: an insertion-ordered dictionary from category name
to pattern list. -/
abbrev Catalog := List (String × List String)

/-- Conversion of parsed TOML data to a rules dictionary, keeping only
valid sections in order; embeds the loops at src/how_to_do.py lines
164-167, 606-611 and 646-649. -/
def catalogFromToml (d : TomlData) : Catalog :=
  d.filterMap (fun e =>
    match e.2 with
    | .valid ps => some (e.1, ps)
    | .invalid => none)

/-- Lookup in an insertion-ordered dictionary; first binding wins
(parsed TOML data never carries duplicate keys). -/
def lookupCat : Catalog → String → Option (List String)
  | [], _ => none
  | e :: es, k => if e.1 = k then some e.2 else lookupCat es k

/-- Replacement of the binding of an existing key, keeping dictionary
order; embeds Python dict item assignment for a key already present. -/
def updateCat : Catalog → String → List String → Catalog
  | [], _, _ => []
  | e :: es, k, v => if e.1 = k then (k, v) :: es else e :: updateCat es k v

/-- User-section loop of merge_gitignore_toml_files (src/how_to_do.py
lines 613-629): a valid user section merges into an existing category via
deduplicate_patterns with the user patterns first, or is appended as a
new category; invalid sections are skipped with a warning. -/
def mergeUser : Catalog → TomlData → Catalog
  | m, [] => m
  | m, e :: rest =>
    match e.2 with
    | .invalid => mergeUser m rest
    | .valid ps =>
      match lookupCat m e.1 with
      | some existing =>
          mergeUser (updateCat m e.1 (deduplicate_patterns (ps ++ existing))) rest
      | none => mergeUser (m ++ [(e.1, ps)]) rest

/-- Pure merge core of merge_gitignore_toml_files: distributor sections
first (lines 606-611), then the user-section loop. -/
def mergeData (dist user : TomlData) : Catalog :=
  mergeUser (catalogFromToml dist) user

/-- Embeds validate_merged_toml_structure (src/how_to_do.py lines
857-899). In the typed embedding category names and patterns are strings
by construction, so the only reachable rejection is a category name that
is empty after stripping; an empty pattern only produces a warning. -/
def validate_merged_toml_structure (data : Catalog) : Bool :=
  data.all (fun e => decide (String.mk (trimChars e.1.data) ≠ ""))

/-- State of a TOML file on disk: absent, present but unparseable, or
present with parsed contents. -/
inductive TomlFile
  | absent
  | malformed
  | parsed (data : TomlData)

/-- Loading and converting the distributor file alone; embeds the
fallback block of merge_gitignore_toml_files (src/how_to_do.py lines
642-654): open raises when the file is absent and tomllib.load raises
when it is malformed, making the fallback itself fail. -/
def loadDistributorRules : TomlFile → Except Unit Catalog
  | .absent => .error ()
  | .malformed => .error ()
  | .parsed d => .ok (catalogFromToml d)

/-- User data visible to the merge: the parsed contents when the user
file parses, empty data when the user file is missing (src/how_to_do.py
line 589) or unparseable (lines 595-598, warning only). -/
def userDataOf : TomlFile → TomlData
  | .parsed ud => ud
  | _ => []

/-- Embeds merge_gitignore_toml_files (src/how_to_do.py lines 562-654)
over the file model. The main body raises when the distributor file is
absent (lines 576-578) or unparseable (lines 581-586); a missing or
unparseable user file degrades to empty user data (lines 588-600);
validation failure raises (lines 633-636). Any raise is caught at line
640 and answered by reloading the distributor file alone. -/
def merge_gitignore_toml_files (dist user : TomlFile) : Except Unit Catalog :=
  let body : Except Unit Catalog :=
    match dist with
    | .absent => .error ()
    | .malformed => .error ()
    | .parsed dd =>
      let merged := mergeData dd (userDataOf user)
      if validate_merged_toml_structure merged then .ok merged else .error ()
  match body with
  | .ok r => .ok r
  | .error _ => loadDistributorRules dist

/-- One item of a bracket character class: a literal character or an
inclusive code point range. -/
inductive ClassItem
  | lit (c : Char)
  | rng (lo hi : Char)
deriving DecidableEq

/-- One compiled token of a shell glob pattern. -/
inductive GlobTok
  | star
  | one
  | lit (c : Char)
  | cls (negated : Bool) (items : List ClassItem)
deriving DecidableEq

/-- Splitting a character list at its first closing bracket: the class
contents before it and the remainder after it; none when the bracket is
never closed (then the opening bracket is taken literally, as in the
fnmatch translation). -/
def findClose : List Char → Option (List Char × List Char)
  | [] => none
  | c :: cs =>
    if c = ']' then some ([], cs)
    else
      match findClose cs with
      | some (s, r) => some (c :: s, r)
      | none => none

/-- Class splitting with the fnmatch rule that a closing bracket placed
first inside the class stands for itself. -/
def splitClass (l : List Char) : Option (List Char × List Char) :=
  match l with
  | ']' :: rest =>
    (match findClose rest with
     | some (s, r) => some (']' :: s, r)
     | none => none)
  | _ => findClose l

/-- Items of a bracket class body: a character, a hyphen and a character
form an inclusive range, anything else is literal (a trailing or leading
hyphen is literal, as in the fnmatch translation). -/
def parseItems : List Char → List ClassItem
  | a :: '-' :: b :: rest => ClassItem.rng a b :: parseItems rest
  | a :: rest => ClassItem.lit a :: parseItems rest
  | [] => []

/-- Fueled glob compiler; each step consumes at least one input
character, so fuel equal to the input length never truncates. Embeds the
fnmatch translation of a pattern: star, question mark, bracket classes
with optional leading negation, all other characters literal. -/
def compileGlobFuel : Nat → List Char → List GlobTok
  | 0, _ => []
  | _ + 1, [] => []
  | fuel + 1, c :: rest =>
    if c = '*' then GlobTok.star :: compileGlobFuel fuel rest
    else if c = '?' then GlobTok.one :: compileGlobFuel fuel rest
    else if c = '[' then
      let negated := match rest with
        | '!' :: _ => true
        | _ => false
      let body := match rest with
        | '!' :: r => r
        | _ => rest
      match splitClass body with
      | some (stuff, r) =>
          GlobTok.cls negated (parseItems stuff) :: compileGlobFuel fuel r
      | none => GlobTok.lit '[' :: compileGlobFuel fuel rest
    else GlobTok.lit c :: compileGlobFuel fuel rest

/-- Compilation of a glob pattern to tokens. -/
def compileGlob (pat : List Char) : List GlobTok :=
  compileGlobFuel pat.length pat

/-- Membership of a character in one class item; an inverted range is
empty, as in the fnmatch translation. -/
def matchClassItem (c : Char) : ClassItem → Bool
  | .lit a => decide (c = a)
  | .rng lo hi => decide (lo ≤ c) && decide (c ≤ hi)

/-- Membership of a character in a bracket class. -/
def matchClass (items : List ClassItem) (c : Char) : Bool :=
  items.any (matchClassItem c)

/-- Token-list matcher: star matches any run of characters (any suffix
split), question mark exactly one character, a class one character in
(or, negated, not in) the class, a literal itself. Separators are not
special, matching the fnmatch semantics used by match_pattern. -/
def tokMatch : List GlobTok → List Char → Bool
  | [], s => s.isEmpty
  | .star :: ts, s => (List.tails s).any (fun suffix => tokMatch ts suffix)
  | .one :: ts, s =>
    (match s with
     | [] => false
     | _ :: cs => tokMatch ts cs)
  | .lit a :: ts, s =>
    (match s with
     | [] => false
     | c :: cs => decide (a = c) && tokMatch ts cs)
  | .cls negated items :: ts, s =>
    (match s with
     | [] => false
     | c :: cs => (matchClass items c != negated) && tokMatch ts cs)

/-- Embeds fnmatch.fnmatch as called by match_pattern: on a POSIX system
normcase is the identity, so this is case-sensitive shell-glob matching
of the whole name against the whole pattern. -/
def fnmatchB (name pat : String) : Bool :=
  tokMatch (compileGlob pat.data) name.data

/-- Embeds the single-character replacement of backslashes by slashes at
src/how_to_do.py line 225. -/
def normalizeSlashes (l : List Char) : List Char :=
  l.map (fun c => if c = '\\' then '/' else c)

/-- Embeds os.path.basename: the part of the path after its last slash
(empty for a path with a trailing slash). -/
def basenameChars (l : List Char) : List Char :=
  (l.reverse.takeWhile (fun c => ¬ (c = '/'))).reverse

/-- Trailing-separator test on a character list. -/
def endsWithSlash (l : List Char) : Bool :=
  decide (l.getLast? = some '/')

/-- Per-path body of the loop of match_pattern (src/how_to_do.py lines
224-250), clauses in source order: the whole normalized path against the
pattern; its basename against the pattern; for a directory entry, the
name with the trailing separator stripped and the basename of that name
against the pattern; and for a pattern with a trailing separator, the
stripped pattern against the stripped directory name and its basename
when the entry is a directory, or against the basename of the entry when
it is not. -/
def matchOne (pattern filePath : String) : Bool :=
  let np := normalizeSlashes filePath.data
  let pat := pattern.data
  tokMatch (compileGlob pat) np ||
  tokMatch (compileGlob pat) (basenameChars np) ||
  (endsWithSlash np &&
    (tokMatch (compileGlob pat) np.dropLast ||
     tokMatch (compileGlob pat) (basenameChars np.dropLast))) ||
  (endsWithSlash pat &&
    (if endsWithSlash np then
       tokMatch (compileGlob pat.dropLast) np.dropLast ||
       tokMatch (compileGlob pat.dropLast) (basenameChars np.dropLast)
     else
       tokMatch (compileGlob pat.dropLast) (basenameChars np)))

/-- Embeds match_pattern (src/how_to_do.py lines 219-252); the scanned
path set is modelled as a list, iteration order being irrelevant to the
any-of result. -/
def match_pattern (pattern : String) (files : List String) : Bool :=
  files.any (fun f => matchOne pattern f)

/-- Node of the scanned file tree: a regular file, a symbolic link
(skipped entirely by the scan), or a directory with children. -/
inductive FsNode
  | file (name : String)
  | symlink (name : String)
  | dir (name : String) (children : List FsNode)

mutual

/-- Paths contributed by one tree node under a prefix: files plain,
directories with a trailing separator plus their contents, symbolic
links nothing; embeds the walk loop body of scan_project_files
(src/how_to_do.py lines 183-211). -/
def entryPaths (pre : String) : FsNode → List String
  | .symlink _ => []
  | .file n => [pre ++ n]
  | .dir n cs => (pre ++ n ++ "/") :: entriesPaths (pre ++ n ++ "/") cs

/-- Paths contributed by a list of sibling nodes under a prefix. -/
def entriesPaths (pre : String) : List FsNode → List String
  | [] => []
  | e :: es => entryPaths pre e ++ entriesPaths pre es

end

/-- State of the scanned root: missing, present but unreadable, or
readable with its top-level children. -/
inductive RootState
  | missing
  | unreadable
  | present (children : List FsNode)

/-- Embeds scan_project_files (src/how_to_do.py lines 175-217) over the
tree model. os.walk is invoked with its default onerror, which silently
ignores the scandir failure on a missing or unreadable root, so in those
cases the loop body never runs and the empty set is returned; no
exception escapes, hence the RuntimeError re-raise at lines 215-217 is
not reached there. -/
def scan_project_files : RootState → Except String (List String)
  | .missing => .ok []
  | .unreadable => .ok []
  | .present cs => .ok (entriesPaths "" cs)

/-- On-disk text files as a finite map from path to content. -/
abbrev FileSys := List (String × String)

/-- Content of a file, none when the path is absent. -/
def fsGet : FileSys → String → Option String
  | [], _ => none
  | e :: es, p => if e.1 = p then some e.2 else fsGet es p

/-- Whole-file write, creating or replacing the path. -/
def fsSet (fs : FileSys) (p c : String) : FileSys :=
  (p, c) :: fs.filter (fun e => decide (¬ (e.1 = p)))

/-- Embeds the Python str.strip() comparison used at src/how_to_do.py
line 99. -/
def pyStrip (s : String) : String := String.mk (trimChars s.data)

/-- Backup path computed at src/how_to_do.py line 104: with_suffix with
the original suffix plus a backup extension appends the backup extension
to the original file name. -/
def backupName (p : String) : String := p ++ ".backup"

/-- Embeds check_and_backup_file (src/how_to_do.py lines 76-117) over
the file model; readOk and writeOk are oracles saying whether opening the
named path for reading or writing succeeds (a raised exception becomes
the corresponding logged False return of the source). -/
def check_and_backup_file (readOk writeOk : String → Bool) (fs : FileSys)
    (filePath newContent : String) : Bool × FileSys :=
  match fsGet fs filePath with
  | none => (false, fs)
  | some existing =>
    if readOk filePath = false then (false, fs)
    else if pyStrip existing = pyStrip newContent then (false, fs)
    else if writeOk (backupName filePath) then
      (true, fsSet fs (backupName filePath) existing)
    else (false, fs)

/-- Embeds safe_write_file (src/how_to_do.py lines 119-146): when the
check reports an update is needed (backup already written), overwrite;
otherwise create the file when absent and do nothing when present. -/
def safe_write_file (readOk writeOk : String → Bool) (fs : FileSys)
    (filePath content : String) : Bool × FileSys :=
  let r := check_and_backup_file readOk writeOk fs filePath content
  if r.1 then
    if writeOk filePath then (true, fsSet r.2 filePath content)
    else (false, r.2)
  else
    match fsGet r.2 filePath with
    | none =>
      if writeOk filePath then (true, fsSet r.2 filePath content)
      else (false, r.2)
    | some _ => (false, r.2)

/-- Identity of a mutable Python list object. -/
abbrev Ref := Nat

/-- Heap of list objects: cell r holds the pattern list of the object
with identity r; mutable Python lists are modelled as heap cells so that
aliasing is observable. -/
abbrev ListHeap := List (List String)

/-- Dictionary object mapping category names to list-object identities. -/
abbrev CatDict := List (String × Ref)

/-- Embeds dict.copy() as performed on the cache (src/how_to_do.py lines
37 and 718): a new dictionary object with the same keys bound to the same
list objects — a shallow copy, the pattern lists themselves are not
copied. -/
def dictShallowCopy (d : CatDict) : CatDict := d

/-- Value handed to the caller by the cache hit at src/how_to_do.py line
718. -/
def cacheHitReturn (cache : CatDict) : CatDict := dictShallowCopy cache

/-- In-place mutation of a list object: appending one pattern to the
cell named by r. -/
def heapAppend (h : ListHeap) (r : Ref) (x : String) : ListHeap :=
  h.set r (h.getD r [] ++ [x])

/-- Reference bound to a category name in a dictionary object. -/
def lookupRef : CatDict → String → Option Ref
  | [], _ => none
  | e :: es, k => if e.1 = k then some e.2 else lookupRef es k

/-- Observable contents of a dictionary object under a heap: every
category name with the current value of its pattern-list object. -/
def readCat (d : CatDict) (h : ListHeap) : List (String × List String) :=
  d.map (fun e => (e.1, h.getD e.2 []))

/-- Observable pattern list of one category of a dictionary object. -/
def observeCat (d : CatDict) (h : ListHeap) (k : String) : Option (List String) :=
  (lookupRef d k).map (fun r => h.getD r [])

example : deduplicate_patterns ["*.py", "*.pyc", "*.py", "*.log", "*.pyc"]
    = ["*.py", "*.pyc", "*.log"] := by decide

example : deduplicate_patterns ["*.py", "*.py # note"] = ["*.py"] := by decide

example : deduplicate_patterns ("b" :: "a" :: List.replicate 99 "a")
    = ["a", "b"] := by decide

example : naiveDeduplicate ("b" :: "a" :: List.replicate 99 "a")
    = ["b", "a"] := by decide

/-! Order lemmas for the key comparison. -/

theorem keyLe_refl : ∀ a : List Char, keyLe a a = true
  | [] => rfl
  | c :: cs => by simp [keyLe, keyLe_refl cs]

theorem keyLe_total : ∀ a b : List Char, keyLe a b = true ∨ keyLe b a = true
  | [], _ => Or.inl rfl
  | _ :: _, [] => Or.inr rfl
  | a :: as, b :: bs => by
    by_cases h : a = b
    · subst h
      simpa [keyLe] using keyLe_total as bs
    · rcases lt_or_gt_of_ne h with hlt | hgt
      · exact Or.inl (by simp [keyLe, h, hlt])
      · exact Or.inr (by simp [keyLe, Ne.symm h, hgt])

theorem keyLe_trans : ∀ a b c : List Char,
    keyLe a b = true → keyLe b c = true → keyLe a c = true
  | [], _, _, _, _ => rfl
  | _ :: _, [], _, h1, _ => by simp [keyLe] at h1
  | _ :: _, _ :: _, [], _, h2 => by simp [keyLe] at h2
  | a :: as, b :: bs, c :: cs, h1, h2 => by
    by_cases hab : a = b <;> by_cases hbc : b = c
    · subst hab; subst hbc
      simp only [keyLe, if_pos rfl] at h1 h2 ⊢
      exact keyLe_trans as bs cs h1 h2
    · subst hab
      simp only [keyLe, if_pos rfl, if_neg hbc, decide_eq_true_eq] at h2 ⊢
      simp [hbc, h2, ne_of_lt h2]
    · subst hbc
      simp only [keyLe, if_neg hab, decide_eq_true_eq] at h1 ⊢
      simp [hab, h1, ne_of_lt h1]
    · simp only [keyLe, if_neg hab, if_neg hbc, decide_eq_true_eq] at h1 h2
      have hac := lt_trans h1 h2
      simp [keyLe, ne_of_lt hac, hac]

theorem tupLe_total (t u : String × String) : tupLe t u = true ∨ tupLe u t = true :=
  keyLe_total _ _

theorem tupLe_trans {t u v : String × String} (h1 : tupLe t u = true)
    (h2 : tupLe u v = true) : tupLe t v = true :=
  keyLe_trans _ _ _ h1 h2

/-! Lemmas about the stable sort of key-pattern pairs. -/

theorem insertTuple_perm (t : String × String) : ∀ ts : List (String × String),
    List.Perm (insertTuple t ts) (t :: ts)
  | [] => List.Perm.refl _
  | u :: us => by
    unfold insertTuple
    by_cases h : tupLe t u = true
    · simp [h]
    · simp only [h, if_false, Bool.false_eq_true]
      exact ((insertTuple_perm t us).cons u).trans (List.Perm.swap t u us)

theorem sortTuples_perm : ∀ ts : List (String × String),
    List.Perm (sortTuples ts) ts
  | [] => List.Perm.refl _
  | t :: ts => (insertTuple_perm t (sortTuples ts)).trans ((sortTuples_perm ts).cons t)

theorem insertTuple_pairwise {t : String × String} :
    ∀ {ts : List (String × String)},
    ts.Pairwise (fun a b => tupLe a b = true) →
    (insertTuple t ts).Pairwise (fun a b => tupLe a b = true)
  | [], _ => List.pairwise_singleton _ _
  | u :: us, h => by
    obtain ⟨hu, hus⟩ := List.pairwise_cons.mp h
    unfold insertTuple
    by_cases hle : tupLe t u = true
    · simp only [hle, if_true]
      refine List.pairwise_cons.mpr ⟨?_, h⟩
      intro v hv
      rcases List.mem_cons.mp hv with rfl | hv2
      · exact hle
      · exact tupLe_trans hle (hu v hv2)
    · simp only [hle, if_false, Bool.false_eq_true]
      refine List.pairwise_cons.mpr ⟨?_, insertTuple_pairwise hus⟩
      intro v hv
      rcases List.mem_cons.mp ((insertTuple_perm t us).mem_iff.mp hv) with rfl | h2
      · rcases tupLe_total v u with h1 | h1
        · exact absurd h1 hle
        · exact h1
      · exact hu v h2

theorem sortTuples_pairwise : ∀ ts : List (String × String),
    (sortTuples ts).Pairwise (fun a b => tupLe a b = true)
  | [] => List.Pairwise.nil
  | _ :: ts => insertTuple_pairwise (sortTuples_pairwise ts)

theorem sortTuples_eq_self : ∀ {ts : List (String × String)},
    ts.Pairwise (fun a b => tupLe a b = true) → sortTuples ts = ts
  | [], _ => rfl
  | t :: ts, h => by
    obtain ⟨ht, hts⟩ := List.pairwise_cons.mp h
    unfold sortTuples
    rw [sortTuples_eq_self hts]
    cases ts with
    | nil => rfl
    | cons u us =>
      unfold insertTuple
      rw [if_pos (ht u (List.mem_cons_self u us))]

/-! Lemmas about the first-occurrence phases of deduplicate_patterns. -/

theorem mem_snd_of_mem_dedupTuples : ∀ {seen : List String}
    {ts : List (String × String)} {q : String},
    q ∈ dedupTuples seen ts → ∃ t, t ∈ ts ∧ t.2 = q := by
  intro seen ts
  induction ts generalizing seen with
  | nil => intro q hq; simp [dedupTuples] at hq
  | cons t ts ih =>
    intro q hq
    unfold dedupTuples at hq
    by_cases hmem : t.1 ∈ seen
    · rw [if_pos hmem] at hq
      obtain ⟨u, hu, he⟩ := ih hq
      exact ⟨u, List.mem_cons_of_mem _ hu, he⟩
    · rw [if_neg hmem] at hq
      rcases List.mem_cons.mp hq with rfl | hq2
      · exact ⟨t, List.mem_cons_self t ts, rfl⟩
      · obtain ⟨u, hu, he⟩ := ih hq2
        exact ⟨u, List.mem_cons_of_mem _ hu, he⟩

theorem dedupTuples_key_notin : ∀ {seen : List String}
    {ts : List (String × String)},
    (∀ t ∈ ts, t.1 = cleanPattern t.2) →
    ∀ q ∈ dedupTuples seen ts, cleanPattern q ∉ seen := by
  intro seen ts
  induction ts generalizing seen with
  | nil => intro _ q hq; simp [dedupTuples] at hq
  | cons t ts ih =>
    intro hck q hq
    have hckt := hck t (List.mem_cons_self t ts)
    have hcks : ∀ u ∈ ts, u.1 = cleanPattern u.2 :=
      fun u hu => hck u (List.mem_cons_of_mem _ hu)
    unfold dedupTuples at hq
    by_cases hmem : t.1 ∈ seen
    · rw [if_pos hmem] at hq
      exact ih hcks q hq
    · rw [if_neg hmem] at hq
      rcases List.mem_cons.mp hq with rfl | hq2
      · rw [← hckt]; exact hmem
      · have := ih hcks q hq2
        exact fun hs => this (List.mem_cons_of_mem _ hs)

theorem dedupTuples_keys_nodup : ∀ {seen : List String}
    {ts : List (String × String)},
    (∀ t ∈ ts, t.1 = cleanPattern t.2) →
    ((dedupTuples seen ts).map cleanPattern).Nodup := by
  intro seen ts
  induction ts generalizing seen with
  | nil => intro _; simp [dedupTuples]
  | cons t ts ih =>
    intro hck
    have hckt := hck t (List.mem_cons_self t ts)
    have hcks : ∀ u ∈ ts, u.1 = cleanPattern u.2 :=
      fun u hu => hck u (List.mem_cons_of_mem _ hu)
    unfold dedupTuples
    by_cases hmem : t.1 ∈ seen
    · rw [if_pos hmem]; exact ih hcks
    · rw [if_neg hmem]
      simp only [List.map_cons, List.nodup_cons]
      constructor
      · intro hin
        obtain ⟨q, hq, he⟩ := List.mem_map.mp hin
        have := dedupTuples_key_notin hcks q hq
        rw [he, ← hckt] at this
        exact this (List.mem_cons_self _ _)
      · exact ih hcks

theorem dedupTuples_key_ne {seen : List String} {ts : List (String × String)}
    (hck : ∀ t ∈ ts, t.1 = cleanPattern t.2) (hne : ∀ t ∈ ts, t.1 ≠ "") :
    ∀ q ∈ dedupTuples seen ts, cleanPattern q ≠ "" := by
  intro q hq
  obtain ⟨t, ht, rfl⟩ := mem_snd_of_mem_dedupTuples hq
  rw [← hck t ht]
  exact hne t ht

theorem dedupTuples_pairwise : ∀ {seen : List String}
    {ts : List (String × String)},
    (∀ t ∈ ts, t.1 = cleanPattern t.2) →
    ts.Pairwise (fun a b => tupLe a b = true) →
    (dedupTuples seen ts).Pairwise
      (fun p q => keyLe (cleanPattern p).data (cleanPattern q).data = true) := by
  intro seen ts
  induction ts generalizing seen with
  | nil => intro _ _; exact List.Pairwise.nil
  | cons t ts ih =>
    intro hck hp
    have hckt := hck t (List.mem_cons_self t ts)
    have hcks : ∀ u ∈ ts, u.1 = cleanPattern u.2 :=
      fun u hu => hck u (List.mem_cons_of_mem _ hu)
    obtain ⟨hhead, htail⟩ := List.pairwise_cons.mp hp
    unfold dedupTuples
    by_cases hmem : t.1 ∈ seen
    · rw [if_pos hmem]; exact ih hcks htail
    · rw [if_neg hmem]
      refine List.pairwise_cons.mpr ⟨?_, ih hcks htail⟩
      intro q hq
      obtain ⟨u, hu, rfl⟩ := mem_snd_of_mem_dedupTuples hq
      have := hhead u hu
      unfold tupLe at this
      rw [hckt, hcks u hu] at this
      exact this

theorem dedupGo_key_props : ∀ {seen : List String} {l : List String},
    ∀ q ∈ dedupGo seen l, cleanPattern q ∉ seen ∧ cleanPattern q ≠ "" := by
  intro seen l
  induction l generalizing seen with
  | nil => intro q hq; simp [dedupGo] at hq
  | cons p ps ih =>
    intro q hq
    unfold dedupGo at hq
    by_cases h0 : cleanPattern p = ""
    · rw [if_pos h0] at hq; exact ih q hq
    · rw [if_neg h0] at hq
      by_cases hmem : cleanPattern p ∈ seen
      · rw [if_pos hmem] at hq; exact ih q hq
      · rw [if_neg hmem] at hq
        rcases List.mem_cons.mp hq with rfl | hq2
        · exact ⟨hmem, h0⟩
        · obtain ⟨hn, he⟩ := ih q hq2
          exact ⟨fun hs => hn (List.mem_cons_of_mem _ hs), he⟩

theorem dedupGo_keys_nodup : ∀ {seen : List String} {l : List String},
    ((dedupGo seen l).map cleanPattern).Nodup := by
  intro seen l
  induction l generalizing seen with
  | nil => simp [dedupGo]
  | cons p ps ih =>
    unfold dedupGo
    by_cases h0 : cleanPattern p = ""
    · rw [if_pos h0]; exact ih
    · rw [if_neg h0]
      by_cases hmem : cleanPattern p ∈ seen
      · rw [if_pos hmem]; exact ih
      · rw [if_neg hmem]
        simp only [List.map_cons, List.nodup_cons]
        refine ⟨?_, ih⟩
        intro hin
        obtain ⟨q, hq, he⟩ := List.mem_map.mp hin
        have := (dedupGo_key_props q hq).1
        rw [he] at this
        exact this (List.mem_cons_self _ _)

theorem dedupGo_length_le : ∀ (seen : List String) (l : List String),
    (dedupGo seen l).length ≤ l.length
  | _, [] => Nat.le_refl 0
  | seen, p :: ps => by
    unfold dedupGo
    by_cases h0 : cleanPattern p = ""
    · rw [if_pos h0]
      exact Nat.le_succ_of_le (dedupGo_length_le seen ps)
    · rw [if_neg h0]
      by_cases hmem : cleanPattern p ∈ seen
      · rw [if_pos hmem]
        exact Nat.le_succ_of_le (dedupGo_length_le seen ps)
      · rw [if_neg hmem]
        simpa using Nat.succ_le_succ (dedupGo_length_le (cleanPattern p :: seen) ps)

theorem dedupGo_eq_self : ∀ {seen : List String} {l : List String},
    (∀ p ∈ l, cleanPattern p ≠ "") → (∀ p ∈ l, cleanPattern p ∉ seen) →
    (l.map cleanPattern).Nodup → dedupGo seen l = l := by
  intro seen l
  induction l generalizing seen with
  | nil => intro _ _ _; rfl
  | cons p ps ih =>
    intro hne hns hnd
    have h0 := hne p (List.mem_cons_self p ps)
    have hmem := hns p (List.mem_cons_self p ps)
    simp only [List.map_cons, List.nodup_cons] at hnd
    unfold dedupGo
    rw [if_neg h0, if_neg hmem]
    congr 1
    refine ih (fun q hq => hne q (List.mem_cons_of_mem _ hq)) ?_ hnd.2
    intro q hq hs
    rcases List.mem_cons.mp hs with he | hs2
    · exact hnd.1 (he ▸ List.mem_map_of_mem cleanPattern hq)
    · exact hns q (List.mem_cons_of_mem _ hq) hs2

theorem mem_filterMap_toTuple {t : String × String} {l : List String}
    (ht : t ∈ l.filterMap toTuple) :
    t.1 = cleanPattern t.2 ∧ t.1 ≠ "" ∧ t.2 ∈ l := by
  obtain ⟨p, hp, he⟩ := List.mem_filterMap.mp ht
  unfold toTuple at he
  by_cases h0 : cleanPattern p = ""
  · rw [if_pos h0] at he; cases he
  · rw [if_neg h0] at he
    cases he
    exact ⟨rfl, h0, hp⟩

theorem filterMap_toTuple_eq_map : ∀ {l : List String},
    (∀ p ∈ l, cleanPattern p ≠ "") →
    l.filterMap toTuple = l.map (fun p => (cleanPattern p, p))
  | [], _ => rfl
  | p :: ps, h => by
    have h0 := h p (List.mem_cons_self p ps)
    have hp : toTuple p = some (cleanPattern p, p) := by
      unfold toTuple
      rw [if_neg h0]
    simp only [List.filterMap_cons, hp, List.map_cons]
    rw [filterMap_toTuple_eq_map (fun q hq => h q (List.mem_cons_of_mem _ hq))]

theorem dedupTuples_map_eq_self : ∀ {seen : List String} {l : List String},
    (∀ p ∈ l, cleanPattern p ∉ seen) → (l.map cleanPattern).Nodup →
    dedupTuples seen (l.map (fun p => (cleanPattern p, p))) = l := by
  intro seen l
  induction l generalizing seen with
  | nil => intro _ _; rfl
  | cons p ps ih =>
    intro hns hnd
    simp only [List.map_cons, List.nodup_cons] at hnd ⊢
    unfold dedupTuples
    rw [if_neg (hns p (List.mem_cons_self p ps))]
    simp only [List.cons.injEq, true_and]
    refine ih ?_ hnd.2
    intro q hq hs
    rcases List.mem_cons.mp hs with he | hs2
    · exact hnd.1 (he ▸ List.mem_map_of_mem cleanPattern hq)
    · exact hns q (List.mem_cons_of_mem _ hq) hs2

theorem dedupLarge_props (P : List String) :
    (∀ q ∈ dedupLarge P, cleanPattern q ≠ "") ∧
    ((dedupLarge P).map cleanPattern).Nodup ∧
    (dedupLarge P).Pairwise
      (fun p q => keyLe (cleanPattern p).data (cleanPattern q).data = true) := by
  have hmem : ∀ t ∈ sortTuples (P.filterMap toTuple),
      t.1 = cleanPattern t.2 ∧ t.1 ≠ "" := by
    intro t ht
    have ht2 := (sortTuples_perm (P.filterMap toTuple)).mem_iff.mp ht
    obtain ⟨h1, h2, _⟩ := mem_filterMap_toTuple ht2
    exact ⟨h1, h2⟩
  have hck : ∀ t ∈ sortTuples (P.filterMap toTuple), t.1 = cleanPattern t.2 :=
    fun t ht => (hmem t ht).1
  have hne : ∀ t ∈ sortTuples (P.filterMap toTuple), t.1 ≠ "" :=
    fun t ht => (hmem t ht).2
  refine ⟨dedupTuples_key_ne hck hne, dedupTuples_keys_nodup hck,
    dedupTuples_pairwise hck (sortTuples_pairwise _)⟩

theorem dedupLarge_eq_self {l : List String}
    (hne : ∀ p ∈ l, cleanPattern p ≠ "")
    (hnd : (l.map cleanPattern).Nodup)
    (hsort : l.Pairwise
      (fun p q => keyLe (cleanPattern p).data (cleanPattern q).data = true)) :
    dedupLarge l = l := by
  unfold dedupLarge
  rw [filterMap_toTuple_eq_map hne]
  have hst : (l.map (fun p => (cleanPattern p, p))).Pairwise
      (fun a b => tupLe a b = true) := by
    rw [List.pairwise_map]
    exact hsort
  rw [sortTuples_eq_self hst]
  exact dedupTuples_map_eq_self (by simp) hnd

theorem dedup_eq_self_small {l : List String} (hlen : l.length ≤ 100)
    (hne : ∀ p ∈ l, cleanPattern p ≠ "")
    (hnd : (l.map cleanPattern).Nodup) :
    deduplicate_patterns l = l := by
  unfold deduplicate_patterns
  by_cases h0 : l = []
  · simp [h0]
  · rw [if_neg h0, if_pos hlen]
    exact dedupGo_eq_self hne (by simp) hnd

/-- C7: deduplication is idempotent on every pattern list, through both
the single-pass branch and the sort-based branch of deduplicate_patterns.
-/
theorem deduplicate_patterns_idempotent (P : List String) :
    deduplicate_patterns (deduplicate_patterns P) = deduplicate_patterns P := by
  by_cases h0 : P = []
  · simp [h0, deduplicate_patterns]
  · by_cases hlen : P.length ≤ 100
    · have hout : deduplicate_patterns P = dedupGo [] P := by
        unfold deduplicate_patterns
        rw [if_neg h0, if_pos hlen]
      rw [hout]
      exact dedup_eq_self_small
        (le_trans (dedupGo_length_le [] P) hlen)
        (fun q hq => (dedupGo_key_props q hq).2)
        dedupGo_keys_nodup
    · have hout : deduplicate_patterns P = dedupLarge P := by
        unfold deduplicate_patterns
        rw [if_neg h0, if_neg hlen]
      rw [hout]
      obtain ⟨hne, hnd, hsort⟩ := dedupLarge_props P
      by_cases hl2 : (dedupLarge P).length ≤ 100
      · exact dedup_eq_self_small hl2 hne hnd
      · unfold deduplicate_patterns
        by_cases he : dedupLarge P = []
        · simp [he]
        · rw [if_neg he, if_neg hl2]
          exact dedupLarge_eq_self hne hnd hsort

/-! Lemmas about the catalog merge. -/

theorem lookupCat_append_ne {m : Catalog} {e : String × List String}
    {k : String} (h : e.1 ≠ k) : lookupCat (m ++ [e]) k = lookupCat m k := by
  induction m with
  | nil => simp [lookupCat, h]
  | cons f fs ih =>
    by_cases hf : f.1 = k
    · simp [lookupCat, hf]
    · simp [lookupCat, hf, ih]

theorem lookupCat_updateCat_ne {m : Catalog} {k k2 : String}
    {v : List String} (h : k ≠ k2) :
    lookupCat (updateCat m k v) k2 = lookupCat m k2 := by
  induction m with
  | nil => rfl
  | cons f fs ih =>
    by_cases hf : f.1 = k
    · simp [updateCat, lookupCat, hf, h]
    · by_cases hf2 : f.1 = k2
      · simp [updateCat, lookupCat, hf, hf2, Ne.symm h]
      · simp [updateCat, lookupCat, hf, hf2, ih]

theorem lookupCat_updateCat_self {m : Catalog} {k : String}
    {v dps : List String} (h : lookupCat m k = some dps) :
    lookupCat (updateCat m k v) k = some v := by
  induction m with
  | nil => simp [lookupCat] at h
  | cons f fs ih =>
    by_cases hf : f.1 = k
    · simp [updateCat, lookupCat, hf]
    · simp only [lookupCat, if_neg hf] at h
      simp [updateCat, lookupCat, hf, ih h]

theorem lookupCat_catalogFromToml : ∀ {d : TomlData} {k : String}
    {v : List String}, (d.map Prod.fst).Nodup →
    (k, TomlSection.valid v) ∈ d →
    lookupCat (catalogFromToml d) k = some v := by
  intro d
  induction d with
  | nil => intro k v _ hmem; cases hmem
  | cons e es ih =>
    intro k v hnd hmem
    simp only [List.map_cons, List.nodup_cons] at hnd
    rcases List.mem_cons.mp hmem with he | hmem2
    · rw [← he]
      simp [catalogFromToml, lookupCat]
    · have hk : k ∈ es.map Prod.fst :=
        List.mem_map_of_mem Prod.fst hmem2
      have hne : e.1 ≠ k := fun hek => hnd.1 (hek ▸ hk)
      have ihr := ih hnd.2 hmem2
      unfold catalogFromToml at ihr ⊢
      simp only [List.filterMap_cons]
      cases hsec : e.2 with
      | valid ps => simp [lookupCat, hne, ihr]
      | invalid => simp [ihr]

theorem lookupCat_mergeUser_notin : ∀ {m : Catalog} {user : TomlData}
    {k : String}, k ∉ user.map Prod.fst →
    lookupCat (mergeUser m user) k = lookupCat m k := by
  intro m user
  induction user generalizing m with
  | nil => intro k _; rfl
  | cons e rest ih =>
    intro k hk
    simp only [List.map_cons, List.mem_cons, not_or] at hk
    have hne : e.1 ≠ k := fun h => hk.1 h.symm
    unfold mergeUser
    cases hsec : e.2 with
    | invalid => exact ih hk.2
    | valid ps =>
      cases hl : lookupCat m e.1 with
      | some ex => rw [ih hk.2, lookupCat_updateCat_ne hne]
      | none => rw [ih hk.2, lookupCat_append_ne hne]

theorem lookupCat_mergeUser_mem : ∀ {m : Catalog} {user : TomlData}
    {k : String} {ups dps : List String}, (user.map Prod.fst).Nodup →
    (k, TomlSection.valid ups) ∈ user → lookupCat m k = some dps →
    lookupCat (mergeUser m user) k = some (deduplicate_patterns (ups ++ dps)) := by
  intro m user
  induction user generalizing m with
  | nil => intro k ups dps _ hmem; cases hmem
  | cons e rest ih =>
    intro k ups dps hnd hmem hm
    simp only [List.map_cons, List.nodup_cons] at hnd
    rcases List.mem_cons.mp hmem with he | hmem2
    · subst he
      have hstep : mergeUser m ((k, TomlSection.valid ups) :: rest)
          = mergeUser (updateCat m k (deduplicate_patterns (ups ++ dps))) rest := by
        conv_lhs => unfold mergeUser
        simp only [hm]
      rw [hstep, lookupCat_mergeUser_notin hnd.1]
      exact lookupCat_updateCat_self (v := deduplicate_patterns (ups ++ dps)) hm
    · have hk : k ∈ rest.map Prod.fst :=
        List.mem_map_of_mem Prod.fst hmem2
      have hne : e.1 ≠ k := fun hek => hnd.1 (hek ▸ hk)
      unfold mergeUser
      cases hsec : e.2 with
      | invalid => exact ih hnd.2 hmem2 hm
      | valid ps =>
        cases hl : lookupCat m e.1 with
        | some ex =>
          exact ih hnd.2 hmem2 ((lookupCat_updateCat_ne hne).trans hm)
        | none =>
          exact ih hnd.2 hmem2 ((lookupCat_append_ne hne).trans hm)

/-- C5: for a category name present with a valid section in both the
distributor and the user data, the merged catalog binds that name to the
deduplicated concatenation of the user patterns followed by the
distributor patterns. -/
theorem merge_common_category (dist user : TomlData) (name : String)
    (dps ups : List String)
    (hndd : (dist.map Prod.fst).Nodup) (hndu : (user.map Prod.fst).Nodup)
    (hd : (name, TomlSection.valid dps) ∈ dist)
    (hu : (name, TomlSection.valid ups) ∈ user) :
    lookupCat (mergeData dist user) name
      = some (deduplicate_patterns (ups ++ dps)) := by
  unfold mergeData
  exact lookupCat_mergeUser_mem hndu hu (lookupCat_catalogFromToml hndd hd)

/-- Witness for C5 at the example of the design document. -/
theorem merge_common_category_witness :
    (([("Python", TomlSection.valid ["*.py", "*.pyc", "__pycache__/"])].map
        Prod.fst).Nodup ∧
     ([("Python", TomlSection.valid ["*.pyc", "*.pyo", "venv/"])].map
        Prod.fst).Nodup ∧
     ("Python", TomlSection.valid ["*.py", "*.pyc", "__pycache__/"])
        ∈ [("Python", TomlSection.valid ["*.py", "*.pyc", "__pycache__/"])] ∧
     ("Python", TomlSection.valid ["*.pyc", "*.pyo", "venv/"])
        ∈ [("Python", TomlSection.valid ["*.pyc", "*.pyo", "venv/"])]) ∧
    lookupCat
      (mergeData [("Python", TomlSection.valid ["*.py", "*.pyc", "__pycache__/"])]
        [("Python", TomlSection.valid ["*.pyc", "*.pyo", "venv/"])]) "Python"
      = some ["*.pyc", "*.pyo", "venv/", "*.py", "__pycache__/"] := by
  refine ⟨⟨by decide, by decide, by decide, by decide⟩, ?_⟩
  rw [merge_common_category
    [("Python", TomlSection.valid ["*.py", "*.pyc", "__pycache__/"])]
    [("Python", TomlSection.valid ["*.pyc", "*.pyo", "venv/"])]
    "Python" ["*.py", "*.pyc", "__pycache__/"] ["*.pyc", "*.pyo", "venv/"]
    (by decide) (by decide) (by decide) (by decide)]
  decide

/-- Reduction of the merge on a parseable baseline: validation success
returns the merged catalog, validation failure falls back to the
baseline-only catalog. -/
theorem merge_parsed_eq (dd : TomlData) (user : TomlFile) :
    merge_gitignore_toml_files (TomlFile.parsed dd) user =
      (if validate_merged_toml_structure (mergeData dd (userDataOf user))
       then Except.ok (mergeData dd (userDataOf user))
       else Except.ok (catalogFromToml dd)) := by
  unfold merge_gitignore_toml_files
  by_cases hv : validate_merged_toml_structure (mergeData dd (userDataOf user)) = true
  · simp [hv]
  · simp [hv, loadDistributorRules]

/-- C8: the merge fails iff the baseline-only reload itself fails (the
baseline file is missing or unparseable); a missing baseline always
surfaces as a failure; and any failure with a parseable baseline other
than a missing baseline — an unparseable user file or a validation
failure of the merged structure — yields the baseline-only catalog
instead of failing. -/
theorem merge_failure_policy (dist user : TomlFile) :
    ((merge_gitignore_toml_files dist user).isOk = false ↔
      loadDistributorRules dist = Except.error ()) ∧
    (merge_gitignore_toml_files TomlFile.absent user).isOk = false ∧
    (∀ dd, dist = TomlFile.parsed dd →
      (user = TomlFile.malformed ∨
        validate_merged_toml_structure (mergeData dd (userDataOf user)) = false) →
      merge_gitignore_toml_files dist user = Except.ok (catalogFromToml dd)) := by
  refine ⟨?_, rfl, ?_⟩
  · cases dist with
    | absent => exact iff_of_true rfl rfl
    | malformed => exact iff_of_true rfl rfl
    | parsed dd =>
      rw [merge_parsed_eq]
      by_cases hv : validate_merged_toml_structure (mergeData dd (userDataOf user)) = true
      · rw [if_pos hv]
        simp [Except.isOk, Except.toBool, loadDistributorRules]
      · rw [if_neg hv]
        simp [Except.isOk, Except.toBool, loadDistributorRules]
  · intro dd hdd hfail
    subst hdd
    rw [merge_parsed_eq]
    rcases hfail with hu | hv
    · subst hu
      have hmd : mergeData dd (userDataOf TomlFile.malformed) = catalogFromToml dd := rfl
      rw [hmd]
      by_cases hv2 : validate_merged_toml_structure (catalogFromToml dd) = true
      · rw [if_pos hv2]
      · rw [if_neg hv2]
    · rw [hv]
      simp

/-- Witness for C8: a parseable baseline whose merged structure fails
validation (empty category name) makes the merge return the
baseline-only catalog instead of failing. -/
theorem merge_failure_policy_witness :
    (TomlFile.absent = TomlFile.malformed ∨
      validate_merged_toml_structure
        (mergeData [("", TomlSection.valid ["x"])] (userDataOf TomlFile.absent))
        = false) ∧
    merge_gitignore_toml_files (TomlFile.parsed [("", TomlSection.valid ["x"])])
        TomlFile.absent
      = Except.ok (catalogFromToml [("", TomlSection.valid ["x"])]) :=
  ⟨Or.inr (by decide),
   (merge_failure_policy (TomlFile.parsed [("", TomlSection.valid ["x"])])
      TomlFile.absent).2.2 _ rfl (Or.inr (by decide))⟩

/-! Lemmas about the file-write helpers. -/

theorem fsGet_filter_ne : ∀ (fs : FileSys) {p q : String}, p ≠ q →
    fsGet (fs.filter (fun e => decide (¬ (e.1 = p)))) q = fsGet fs q
  | [], _, _, _ => rfl
  | e :: es, p, q, h => by
    by_cases he : e.1 = p
    · rw [List.filter_cons_of_neg (by simp [he])]
      rw [fsGet_filter_ne es h]
      have hq : ¬ (e.1 = q) := fun hh => h (he.symm.trans hh)
      simp [fsGet, hq]
    · rw [List.filter_cons_of_pos (by simp [he])]
      by_cases hq : e.1 = q
      · simp [fsGet, hq]
      · simp only [fsGet, if_neg hq]
        exact fsGet_filter_ne es h

theorem fsGet_fsSet_self (fs : FileSys) (p c : String) :
    fsGet (fsSet fs p c) p = some c := by
  simp [fsSet, fsGet]

theorem fsGet_fsSet_ne (fs : FileSys) {p q : String} (c : String) (h : p ≠ q) :
    fsGet (fsSet fs p c) q = fsGet fs q := by
  simp only [fsSet, fsGet, if_neg h]
  exact fsGet_filter_ne fs h

theorem backupName_ne (p : String) : backupName p ≠ p := by
  intro h
  have hl := congrArg String.length h
  rw [backupName, String.length_append] at hl
  have h7 : (".backup" : String).length = 7 := rfl
  omega

theorem check_reduce_readfail {readOk writeOk : String → Bool} {fs : FileSys}
    {p content old : String} (hold : fsGet fs p = some old)
    (hro : readOk p = false) :
    check_and_backup_file readOk writeOk fs p content = (false, fs) := by
  unfold check_and_backup_file
  rw [hold]
  simp [hro]

theorem check_reduce_backup {readOk writeOk : String → Bool} {fs : FileSys}
    {p content old : String} (hold : fsGet fs p = some old)
    (hro : readOk p = true) (hdiff : pyStrip old ≠ pyStrip content)
    (hwb : writeOk (backupName p) = true) :
    check_and_backup_file readOk writeOk fs p content
      = (true, fsSet fs (backupName p) old) := by
  unfold check_and_backup_file
  rw [hold]
  simp [hro, hdiff, hwb]

theorem check_reduce_nobackup {readOk writeOk : String → Bool} {fs : FileSys}
    {p content old : String} (hold : fsGet fs p = some old)
    (hro : readOk p = true) (hdiff : pyStrip old ≠ pyStrip content)
    (hwb : writeOk (backupName p) = false) :
    check_and_backup_file readOk writeOk fs p content = (false, fs) := by
  unfold check_and_backup_file
  rw [hold]
  simp [hro, hdiff, hwb]

/-- C9: whenever safe_write_file changes the content of an existing file
whose stripped content differs from the new content, it has first
preserved the previous content in the sibling backup file (original name
plus the backup suffix); otherwise the file keeps its old content. -/
theorem safe_write_file_backup (readOk writeOk : String → Bool)
    (fs : FileSys) (p content old : String)
    (hold : fsGet fs p = some old)
    (hdiff : pyStrip old ≠ pyStrip content) :
    fsGet (safe_write_file readOk writeOk fs p content).2 p = some old ∨
      (fsGet (safe_write_file readOk writeOk fs p content).2 p = some content ∧
       fsGet (safe_write_file readOk writeOk fs p content).2 (backupName p)
         = some old) := by
  cases hro : readOk p with
  | false =>
    have hc := @check_reduce_readfail readOk writeOk fs p content old hold hro
    left
    simp [safe_write_file, hc, hold]
  | true =>
    cases hwb : writeOk (backupName p) with
    | false =>
      have hc := check_reduce_nobackup hold hro hdiff hwb
      left
      simp [safe_write_file, hc, hold]
    | true =>
      have hc := check_reduce_backup hold hro hdiff hwb
      cases hwp : writeOk p with
      | true =>
        right
        have h1 : fsGet (fsSet (fsSet fs (backupName p) old) p content) p
            = some content := fsGet_fsSet_self _ _ _
        have h2 : fsGet (fsSet (fsSet fs (backupName p) old) p content)
            (backupName p) = some old := by
          rw [fsGet_fsSet_ne _ _ (fun hh => backupName_ne p hh.symm)]
          exact fsGet_fsSet_self _ _ _
        simp [safe_write_file, hc, hwp, h1, h2]
      | false =>
        left
        have h3 : fsGet (fsSet fs (backupName p) old) p = fsGet fs p :=
          fsGet_fsSet_ne _ _ (backupName_ne p)
        simp [safe_write_file, hc, hwp, h3, hold]

/-- Witness for C9: overwriting a differing file leaves the old content
in the sibling backup file. -/
theorem safe_write_file_backup_witness :
    (fsGet [("a.txt", "old")] "a.txt" = some "old" ∧
     pyStrip "old" ≠ pyStrip "new") ∧
    (fsGet (safe_write_file (fun _ => true) (fun _ => true)
        [("a.txt", "old")] "a.txt" "new").2 "a.txt" = some "old" ∨
     (fsGet (safe_write_file (fun _ => true) (fun _ => true)
         [("a.txt", "old")] "a.txt" "new").2 "a.txt" = some "new" ∧
      fsGet (safe_write_file (fun _ => true) (fun _ => true)
         [("a.txt", "old")] "a.txt" "new").2 (backupName "a.txt")
        = some "old")) :=
  ⟨⟨by decide, by decide⟩,
   safe_write_file_backup (fun _ => true) (fun _ => true)
     [("a.txt", "old")] "a.txt" "new" "old" (by decide) (by decide)⟩

/-- C10: when the existing content equals the new content after
stripping leading and trailing whitespace, safe_write_file reports False
and leaves the file system unchanged: no write is performed and no
backup file is created. -/
theorem safe_write_file_strip_equal_noop (readOk writeOk : String → Bool)
    (fs : FileSys) (p content old : String)
    (hold : fsGet fs p = some old)
    (heq : pyStrip old = pyStrip content) :
    safe_write_file readOk writeOk fs p content = (false, fs) := by
  unfold safe_write_file check_and_backup_file
  rw [hold]
  by_cases hro : readOk p = false
  · simp [hro, hold]
  · simp [hro, heq, hold]

/-- Witness for C10: raw contents that differ only in surrounding
whitespace cause no write and no backup. -/
theorem safe_write_file_strip_equal_noop_witness :
    (fsGet [("a.txt", "abc\n")] "a.txt" = some "abc\n" ∧
     pyStrip "abc\n" = pyStrip "abc" ∧ "abc\n" ≠ "abc") ∧
    safe_write_file (fun _ => true) (fun _ => true)
        [("a.txt", "abc\n")] "a.txt" "abc"
      = (false, [("a.txt", "abc\n")]) :=
  ⟨⟨by decide, by decide, by decide⟩,
   safe_write_file_strip_equal_noop (fun _ => true) (fun _ => true)
     [("a.txt", "abc\n")] "a.txt" "abc" "abc\n" (by decide) (by decide)⟩

/-! Cache, scanner and deduplication-order theorems. -/

theorem getD_set_self : ∀ (h : ListHeap) (i : Nat) (v : List String),
    i < h.length → (h.set i v).getD i [] = v
  | _ :: _, 0, _, _ => rfl
  | _ :: as, i + 1, v, hlt => getD_set_self as i v (Nat.lt_of_succ_lt_succ hlt)
  | [], i, _, hlt => absurd hlt (Nat.not_lt_zero i)

/-- C4 counterexample: the cache hit hands back a shallow copy sharing
its pattern-list objects with the cache; appending to the list reachable
from the returned mapping changes what the cached instance observes,
refuting the claim that no caller mutation of a pattern list inside the
returned value can change the cached instance. -/
theorem cache_hit_shallow_copy_counterexample :
    lookupRef (cacheHitReturn [("Python", 0)]) "Python" = some 0 ∧
    readCat [("Python", 0)] [["*.py"]] = [("Python", ["*.py"])] ∧
    readCat [("Python", 0)] (heapAppend [["*.py"]] 0 "venv/")
      = [("Python", ["*.py", "venv/"])] ∧
    readCat [("Python", 0)] (heapAppend [["*.py"]] 0 "venv/")
      ≠ readCat [("Python", 0)] [["*.py"]] := by decide

/-- C4 amended: the cache hit returns a shallow copy. The returned
mapping is a distinct dictionary object, but each pattern list inside it
is the cached list object itself: the copy binds every category to the
same list object as the cache, and an in-place append through the
returned mapping is observed by the cached instance. -/
theorem cache_hit_shallow_copy (cache : CatDict) (h : ListHeap) (k : String)
    (r : Ref) (x : String)
    (hk : lookupRef (cacheHitReturn cache) k = some r) (hr : r < h.length) :
    lookupRef cache k = some r ∧
    observeCat cache (heapAppend h r x) k = some (h.getD r [] ++ [x]) ∧
    observeCat cache (heapAppend h r x) k ≠ observeCat cache h k := by
  have hk2 : lookupRef cache k = some r := hk
  have hset := getD_set_self h r (List.getD h r [] ++ [x]) hr
  refine ⟨hk2, ?_, ?_⟩
  · simp only [observeCat, hk2, Option.map_some', heapAppend]
    rw [hset]
  · simp only [observeCat, hk2, Option.map_some', heapAppend]
    rw [hset]
    intro hcontra
    have hlist := Option.some.inj hcontra
    have hlen := congrArg List.length hlist
    rw [List.length_append] at hlen
    simp at hlen

/-- Witness for the amended C4. -/
theorem cache_hit_shallow_copy_witness :
    (lookupRef (cacheHitReturn [("Python", 0)]) "Python" = some 0 ∧
     0 < ([["*.py"]] : ListHeap).length) ∧
    (lookupRef [("Python", 0)] "Python" = some 0 ∧
     observeCat [("Python", 0)] (heapAppend [["*.py"]] 0 "venv/") "Python"
       = some (([["*.py"]] : ListHeap).getD 0 [] ++ ["venv/"]) ∧
     observeCat [("Python", 0)] (heapAppend [["*.py"]] 0 "venv/") "Python"
       ≠ observeCat [("Python", 0)] [["*.py"]] "Python") :=
  ⟨⟨by decide, by decide⟩,
   cache_hit_shallow_copy [("Python", 0)] [["*.py"]] "Python" 0 "venv/"
     (by decide) (by decide)⟩

/-- C2 counterexample: scanning a missing (or unreadable) root succeeds
with an empty path set instead of failing with an IOError. -/
theorem scan_missing_root_succeeds :
    scan_project_files RootState.missing = Except.ok [] ∧
    (scan_project_files RootState.missing).isOk = true ∧
    scan_project_files RootState.unreadable = Except.ok [] ∧
    (scan_project_files RootState.unreadable).isOk = true :=
  ⟨rfl, rfl, rfl, rfl⟩

/-- C2 amended: for a missing or unreadable root the scan returns the
empty path set successfully; the walk yields no entries and no exception
is raised. -/
theorem scan_missing_or_unreadable (root : RootState)
    (h : root = RootState.missing ∨ root = RootState.unreadable) :
    scan_project_files root = Except.ok [] := by
  rcases h with rfl | rfl <;> rfl

/-- Witness for the amended C2. -/
theorem scan_missing_or_unreadable_witness :
    (RootState.missing = RootState.missing ∨
      RootState.missing = RootState.unreadable) ∧
    scan_project_files RootState.missing = Except.ok [] :=
  ⟨Or.inl rfl, scan_missing_or_unreadable RootState.missing (Or.inl rfl)⟩

/-- C1: on a list longer than 100 elements the sort-based branch of
deduplicate_patterns reorders the retained patterns by comparison key,
so its output differs from the naive single-pass first-occurrence
algorithm; the list b, a, then 99 more copies of a is a concrete
divergence. -/
theorem deduplicate_patterns_diverges_from_naive_beyond_100 :
    ("b" :: "a" :: List.replicate 99 "a").length = 101 ∧
    deduplicate_patterns ("b" :: "a" :: List.replicate 99 "a") = ["a", "b"] ∧
    naiveDeduplicate ("b" :: "a" :: List.replicate 99 "a") = ["b", "a"] ∧
    deduplicate_patterns ("b" :: "a" :: List.replicate 99 "a")
      ≠ naiveDeduplicate ("b" :: "a" :: List.replicate 99 "a") := by decide

/-- C6: both documented examples hold, but on a list longer than 100
elements deduplicate_patterns abandons first-occurrence order: with the
pattern *.pyc first and 100 copies of *.py after it, the output is *.py
then *.pyc instead of the first-occurrence order *.pyc then *.py. -/
theorem deduplicate_first_occurrence_examples_and_large_failure :
    deduplicate_patterns ["*.py", "*.pyc", "*.py", "*.log", "*.pyc"]
      = ["*.py", "*.pyc", "*.log"] ∧
    deduplicate_patterns ["*.py", "*.py # note"] = ["*.py"] ∧
    ("*.pyc" :: List.replicate 100 "*.py").length = 101 ∧
    deduplicate_patterns ("*.pyc" :: List.replicate 100 "*.py")
      = ["*.py", "*.pyc"] ∧
    deduplicate_patterns ("*.pyc" :: List.replicate 100 "*.py")
      ≠ ["*.pyc", "*.py"] := by decide

/-- C3 counterexample: the directory-only pattern venv/ is satisfied by
the non-directory entry venv; clauses one to three are false for that
entry (the whole name and its basename fail against venv/ and the entry
is not a directory), so the match comes from the trailing-separator
clause, refuting that only directory entries can satisfy it. -/
theorem dir_only_pattern_matches_file_counterexample :
    match_pattern "venv/" ["venv"] = true ∧
    endsWithSlash ("venv".data) = false ∧
    fnmatchB "venv" "venv/" = false ∧
    fnmatchB (String.mk (basenameChars ("venv".data))) "venv/" = false := by
  decide

/-- C3 amended: for a pattern with a trailing separator, the
trailing-separator clause of match_pattern accepts a directory entry
whose stripped name or stripped-name basename matches the stripped
pattern, and it also accepts a non-directory entry whose basename
matches the stripped pattern; in particular venv/ matches the path set
with venv/ and the one with a plain file venv, but not the one with
venv.txt. -/
theorem dir_only_pattern_clause :
    (∀ pattern p : String, endsWithSlash pattern.data = true →
      endsWithSlash (normalizeSlashes p.data) = false →
      tokMatch (compileGlob pattern.data.dropLast)
        (basenameChars (normalizeSlashes p.data)) = true →
      matchOne pattern p = true) ∧
    (∀ pattern p : String, endsWithSlash pattern.data = true →
      endsWithSlash (normalizeSlashes p.data) = true →
      (tokMatch (compileGlob pattern.data.dropLast)
          ((normalizeSlashes p.data).dropLast) ||
       tokMatch (compileGlob pattern.data.dropLast)
          (basenameChars ((normalizeSlashes p.data).dropLast))) = true →
      matchOne pattern p = true) ∧
    match_pattern "venv/" ["venv/"] = true ∧
    match_pattern "venv/" ["venv.txt"] = false ∧
    match_pattern "venv/" ["venv"] = true := by
  refine ⟨?_, ?_, by decide, by decide, by decide⟩
  · intro pattern p hp hnp hbm
    simp [matchOne, hp, hnp, hbm]
  · intro pattern p hp hnp hm
    simp [matchOne, hp, hnp, hm]

/-- Witness for the amended C3 at a non-directory entry. -/
theorem dir_only_pattern_clause_witness :
    (endsWithSlash ("venv/".data) = true ∧
     endsWithSlash (normalizeSlashes ("venv".data)) = false ∧
     tokMatch (compileGlob ("venv/".data.dropLast))
       (basenameChars (normalizeSlashes ("venv".data))) = true) ∧
    matchOne "venv/" "venv" = true :=
  ⟨⟨by decide, by decide, by decide⟩,
   dir_only_pattern_clause.1 "venv/" "venv" (by decide) (by decide) (by decide)⟩
